import Mathlib

/-!
Verification of the pagination/aggregation pipeline of the GitPeek
repository (`api/utils/github.js`, `api/utils/analysis.js`, and the
analysis composer handlers), via a shallow embedding in Lean 4.

Modelling conventions:
* A paginated upstream collection is modelled as the list of its items;
  the server serves page `p` (1-based) as `items.drop ((p-1)*100) |>.take 100`,
  matching the fixed `perPage = 100` of the source.
* JavaScript `Date` values are modelled as natural numbers (milliseconds
  since the epoch); the dotted-field-path timestamp extraction of
  `fetchPagesWithDateTermination` is abstracted into a `dateOf` function.
* `Math.round(a/b)` for nonnegative integers is `⌊a/b + 1/2⌋`, i.e.
  `(2*a + b) / (2*b)` in natural-number division (half rounds up, as in JS).
  Float/real divergence of IEEE doubles is outside the model.
* JavaScript string falsiness (`undefined`, `null`, `''`) is modelled by
  `Option String` together with `jsTruthy`, which is false on `none` and
  on `some ""`.
* `Array.prototype.sort` is a stable sort (ECMAScript 2019); its result is
  uniquely determined by the comparator plus stability, so it is modelled
  by a stable insertion sort `stableSortBy`.
-/

namespace GitPeek

/-- JS `Math.round(a / b)` for natural `a`, `b`: `⌊a/b + 1/2⌋ = (2a+b)/(2b)`
in natural division. For `b = 0` this gives `0`, which only arises on paths
the source guards with a `total > 0` test that also yields `0`. -/
def jsRoundDiv (a b : Nat) : Nat :=
  (2 * a + b) / (2 * b)

/-- Truthiness of a JS string-or-undefined value: `undefined`/`null`/`''`
are falsy, every other string is truthy. -/
def jsTruthy : Option String → Bool
  | none => false
  | some s => s != ""

/-- Value of `x || fallback` for a JS string-or-undefined `x` whose fallback
is the empty string, as in `author.avatar_url || ''`. -/
def jsOrEmpty : Option String → String
  | none => ""
  | some s => s

/- ### `api/utils/github.js` : fetchAllPages -/

/-- Loop body of `fetchAllPages` (`api/utils/github.js` lines 127-157).
`remaining` is the not-yet-served suffix of the collection, `acc` is
`allItems`. Each iteration serves one page of up to 100 items, appends it,
stops on an empty or short page, and returns `allItems.slice(0, maxItems)`
as soon as the accumulated count reaches a positive `maxItems`. The order
of the short-page break and the max-items check is exactly the source's. -/
def fetchAllPagesGo (maxItems : Nat) (remaining acc : List α) : List α :=
  if _h0 : (remaining.take 100).length = 0 then
    acc
  else
    if (remaining.take 100).length < 100 then
      acc ++ remaining.take 100
    else if 0 < maxItems ∧ maxItems ≤ (acc ++ remaining.take 100).length then
      (acc ++ remaining.take 100).take maxItems
    else
      fetchAllPagesGo maxItems (remaining.drop 100) (acc ++ remaining.take 100)
  termination_by remaining.length
  decreasing_by
    simp only [List.length_take, List.length_drop] at *
    omega

/-- `fetchAllPages(endpoint, token, params, maxItems)` over a collection
whose full item list is `items`, served in pages of 100. -/
def fetchAllPages (items : List α) (maxItems : Nat := 0) : List α :=
  fetchAllPagesGo maxItems items []

/- ### `api/utils/github.js` : fetchPagesWithDateTermination -/

/-- The early-termination test of `fetchPagesWithDateTermination`
(`if (since && itemDate < new Date(since))`): true when a lower bound is
present and the item's timestamp is strictly older than it. `untl` stands
for the source's `until`, which is a reserved word here. -/
def beforeSince (since : Option Nat) (t : Nat) : Bool :=
  match since with
  | none => false
  | some s => t < s

/-- The retention test of `fetchPagesWithDateTermination`
(`(!since || itemDate >= since) && (!until || itemDate <= until)`). -/
def withinRange (since untl : Option Nat) (t : Nat) : Bool :=
  (match since with
   | none => true
   | some s => s ≤ t) &&
  (match untl with
   | none => true
   | some u => t ≤ u)

/-- The per-page `for (const item of items)` loop of
`fetchPagesWithDateTermination` (`api/utils/github.js` lines 73-97):
returns the `validItems` collected before the first too-old item together
with the `shouldTerminate` flag. Items after the first too-old item in the
page are not examined. -/
def scanPage (dateOf : α → Nat) (since untl : Option Nat) : List α → List α × Bool
  | [] => ([], false)
  | item :: rest =>
    if beforeSince since (dateOf item) then ([], true)
    else
      let res := scanPage dateOf since untl rest
      (if withinRange since untl (dateOf item) then item :: res.1 else res.1, res.2)

/-- Loop body of `fetchPagesWithDateTermination` (`api/utils/github.js`
lines 50-117). `page` is the 1-based index of the page about to be
requested; the returned number is the count of pages actually requested.
The loop exits on an empty page, on termination or a short page, or on the
hard 50-page ceiling (`if (page > 50) break` after `page++`). -/
def fetchPagesGo (dateOf : α → Nat) (since untl : Option Nat)
    (remaining acc : List α) (page : Nat) : List α × Nat :=
  if _h0 : (remaining.take 100).length = 0 then
    (acc, page)
  else
    if (scanPage dateOf since untl (remaining.take 100)).2
        ∨ (remaining.take 100).length < 100 then
      (acc ++ (scanPage dateOf since untl (remaining.take 100)).1, page)
    else if 50 < page + 1 then
      (acc ++ (scanPage dateOf since untl (remaining.take 100)).1, page)
    else
      fetchPagesGo dateOf since untl (remaining.drop 100)
        (acc ++ (scanPage dateOf since untl (remaining.take 100)).1) (page + 1)
  termination_by remaining.length
  decreasing_by
    simp only [List.length_take, List.length_drop] at *
    omega

/-- `fetchPagesWithDateTermination(endpoint, token, params, since, until,
dateField)` over a collection whose full newest-first item list is `items`,
served in pages of 100; `dateOf` abstracts the (possibly dotted)
`dateField` lookup. Returns the retained items and the number of pages
requested. -/
def fetchPagesWithDateTermination (dateOf : α → Nat) (since untl : Option Nat)
    (items : List α) : List α × Nat :=
  fetchPagesGo dateOf since untl items [] 1

/- ### Stable sort, modelling `Array.prototype.sort` -/

/-- One insertion step of a stable insertion sort. `le c d = true` means
`c` may be placed at or before `d`; the inserted element passes over
exactly the elements it must strictly follow. -/
def insertSorted (le : α → α → Bool) (c : α) : List α → List α
  | [] => [c]
  | d :: rest => if le c d then c :: d :: rest else d :: insertSorted le c rest

/-- Stable insertion sort. ECMAScript requires `Array.prototype.sort` to be
stable, and a stable sort's output is uniquely determined by the comparator
(as a total preorder) together with stability, so this models the source's
`.sort(...)` calls exactly. -/
def stableSortBy (le : α → α → Bool) : List α → List α
  | [] => []
  | c :: rest => insertSorted le c (stableSortBy le rest)

/- ### Data model of collection items -/

/-- The structured `author` reference of a commit API item. -/
structure AuthorRef where
  login : Option String
  avatar_url : Option String
  html_url : Option String
  deriving DecidableEq

/-- The freeform `commit.author` sub-object of a commit API item: a display
name and the authored timestamp (milliseconds since the epoch). -/
structure CommitAuthor where
  name : Option String
  date : Option Nat
  deriving DecidableEq

/-- The nested `commit` sub-object of a commit API item. -/
structure CommitDetail where
  author : Option CommitAuthor
  deriving DecidableEq

/-- A commit collection item, with the fields the Aggregator reads. -/
structure Commit where
  author : Option AuthorRef
  commit : Option CommitDetail
  deriving DecidableEq

/-- A derived contributor entry, as built by `extractContributors`. -/
structure Contributor where
  login : String
  contributions : Nat
  avatar_url : String
  html_url : String
  deriving DecidableEq

instance : Inhabited Contributor :=
  ⟨⟨"", 0, "", ""⟩⟩

/- ### `api/utils/analysis.js` : extractContributors -/

/-- Identity resolution of `extractContributors`
(`const author = commit.author || {};
const login = author.login || commit.commit?.author?.name;`):
the structured login is preferred when truthy, otherwise the freeform
commit author name is used. -/
def resolveLogin (c : Commit) : Option String :=
  if jsTruthy (c.author.bind AuthorRef.login) then c.author.bind AuthorRef.login
  else (c.commit.bind CommitDetail.author).bind CommitAuthor.name

/-- `contributorMap.get(login).contributions++` on an insertion-ordered
association list: increments the (unique) entry with the given login. -/
def bumpContribution (l : String) : List Contributor → List Contributor
  | [] => []
  | x :: rest =>
    if x.login = l then { x with contributions := x.contributions + 1 } :: rest
    else x :: bumpContribution l rest

/-- The `commits.forEach` accumulation of `extractContributors`
(`api/utils/analysis.js` lines 107-125). `acc` models the
insertion-ordered `contributorMap`; a commit whose resolved login is truthy
either creates a new entry (count 1, after the immediate increment) at the
end or increments the existing entry; other commits are skipped. -/
def contributorFold (acc : List Contributor) : List Commit → List Contributor
  | [] => acc
  | c :: rest =>
    if jsTruthy (resolveLogin c) then
      if acc.any (fun x => x.login = (resolveLogin c).getD "") then
        contributorFold (bumpContribution ((resolveLogin c).getD "") acc) rest
      else
        contributorFold (acc ++ [⟨(resolveLogin c).getD "", 1,
          jsOrEmpty (c.author.bind AuthorRef.avatar_url),
          jsOrEmpty (c.author.bind AuthorRef.html_url)⟩]) rest
    else
      contributorFold acc rest

/-- The comparator `(a, b) => b.contributions - a.contributions` as a
stable-sort placement predicate: `a` may be placed at or before `b` iff its
contribution count is at least `b`'s. -/
def contribGe (a b : Contributor) : Bool :=
  b.contributions ≤ a.contributions

/-- `extractContributors(commits)` (`api/utils/analysis.js` lines 106-129):
accumulate per-login contribution counts in first-seen order, then sort by
descending contribution count with JS's stable sort. -/
def extractContributors (commits : List Commit) : List Contributor :=
  stableSortBy contribGe (contributorFold [] commits)

/-- Total contribution count of a contributor list. -/
def sumContributions (l : List Contributor) : Nat :=
  (l.map Contributor.contributions).sum

/- ### `api/utils/analysis.js` : generateCollaborationPairs -/

/-- A collaboration pair entry (`{pair, interactions, type}`). -/
structure CollabPair where
  pair : String
  interactions : Nat
  type : String
  deriving DecidableEq

/-- One candidate pair of the double loop of `generateCollaborationPairs`:
interaction estimate `Math.floor(min(c1.contributions, c2.contributions) / 10)`;
pairs with zero estimated interactions are dropped. -/
def mkCollabPair (author1 author2 : Contributor) : Option CollabPair :=
  let interactions := min author1.contributions author2.contributions / 10
  if 0 < interactions then
    some ⟨author1.login ++ " ↔ " ++ author2.login, interactions, "commit"⟩
  else
    none

/-- The nested loops `for (i = 0; i < min(top.length, 3); i++)
for (j = i + 1; j < min(top.length, 3); j++)` enumerate exactly the
ordered pairs of the first three contributors, in the order
(0,1), (0,2), (1,2); `pairsAmong` enumerates the same pairs structurally. -/
def pairsAmong : List Contributor → List CollabPair
  | [] => []
  | a :: rest => rest.filterMap (mkCollabPair a) ++ pairsAmong rest

/-- `generateCollaborationPairs(contributors, maxPairs = 6)`
(`api/utils/analysis.js` lines 137-160): candidate pairs among the top 3 of
the top 5 contributors, then `pairs.slice(0, maxPairs)`. -/
def generateCollaborationPairs (contributors : List Contributor)
    (maxPairs : Nat := 6) : List CollabPair :=
  (pairsAmong ((contributors.take 5).take 3)).take maxPairs

/- ### `api/utils/analysis.js` : calculateLanguagePercentages -/

/-- `calculateLanguagePercentages(languagesData, fallbackLanguage = null)`
(`api/utils/analysis.js` lines 168-185). The languages object is modelled
as an insertion-ordered association list; the zero-total fallback branch
`if (fallbackLanguage) { return { [fallbackLanguage]: 100 }; } return {};`
is a JS truthiness test, so a falsy fallback (`null`/`undefined`/`''`,
i.e. `none` or `some ""`) yields the empty mapping. -/
def calculateLanguagePercentages (languagesData : List (String × Nat))
    (fallbackLanguage : Option String := none) : List (String × Nat) :=
  if 0 < (languagesData.map Prod.snd).sum then
    languagesData.map (fun p =>
      (p.1, jsRoundDiv (100 * p.2) ((languagesData.map Prod.snd).sum)))
  else if jsTruthy fallbackLanguage then
    [(fallbackLanguage.getD "", 100)]
  else
    []

/- ### `api/utils/analysis.js` : analyzeFileTypes -/

/-- A top-level repository contents entry, with the fields
`analyzeFileTypes` and the composer read. -/
structure ContentItem where
  type : String
  name : Option String
  size : Option Nat
  deriving DecidableEq

/-- `counts[k] = (counts[k] || 0) + 1` on an insertion-ordered association
list: increment the entry if present, else append it with count 1. -/
def bumpKey [DecidableEq κ] (k : κ) : List (κ × Nat) → List (κ × Nat)
  | [] => [(k, 1)]
  | p :: rest => if p.1 = k then (p.1, p.2 + 1) :: rest else p :: bumpKey k rest

/-- File extension as computed by
`item.name.split('.').pop().toLowerCase()`. -/
def extOf (name : String) : String :=
  ((name.splitOn ".").getLastD "").toLower

/-- `analyzeFileTypes(contentsData)` (`api/utils/analysis.js` lines
192-210): count lower-cased extensions of entries of type `"file"` whose
name is truthy and includes a dot; report `{unknown: 1}` when no typed
file was found. -/
def analyzeFileTypes (contentsData : List ContentItem) : List (String × Nat) :=
  let fileTypes := contentsData.foldl (fun m item =>
    if item.type = "file" ∧ jsTruthy item.name ∧ (item.name.getD "").contains '.'
    then bumpKey (extOf (item.name.getD "")) m
    else m) []
  if fileTypes.length = 0 then [("unknown", 1)] else fileTypes

/- ### `api/utils/analysis.js` : generateActivityHeatmap -/

/-- UTC calendar-day index of a millisecond timestamp. The date portion of
`toISOString()` determines and is determined by `ms / 86400000`, and
lexicographic order on ISO date strings coincides with numeric order on
day indices. -/
def dayKey (ms : Nat) : Nat :=
  ms / 86400000

/-- `generateActivityHeatmap(commits)` (`api/utils/analysis.js` lines
217-229): bucket commits by UTC day of `commit.commit?.author?.date`
(commits without a date are skipped), then sort the day → count entries by
key as `Object.entries(daily).sort()` does. -/
def generateActivityHeatmap (commits : List Commit) : List (Nat × Nat) :=
  let daily := commits.foldl (fun m c =>
    match (c.commit.bind CommitDetail.author).bind CommitAuthor.date with
    | some d => bumpKey (dayKey d) m
    | none => m) []
  stableSortBy (fun p q => p.1 ≤ q.1) daily

/- ### `api/utils/analysis.js` : calculateQuarterlyInsights -/

/-- The `user` sub-object of a pull request. -/
structure PullRequestUser where
  login : Option String
  deriving DecidableEq

/-- A pull-request collection item, with the fields the analysis reads. -/
structure PullRequest where
  user : Option PullRequestUser
  merged_at : Option Nat
  state : String
  created_at : Option Nat
  deriving DecidableEq

/-- An issue collection item; `pull_request` records the truthiness of the
marker object GitHub attaches to PR-backed issues. -/
structure Issue where
  pull_request : Bool
  state : String
  created_at : Option Nat
  deriving DecidableEq

/-- The `year_over_year` block of `calculateQuarterlyInsights`. -/
structure YearOverYear where
  total_commits : Nat
  total_contributors : Nat
  total_prs : Nat
  overall_merge_rate : Nat
  avg_commits_per_day : Nat
  avg_quarterly_velocity : Nat
  code_velocity : Nat
  deriving DecidableEq

/-- One hard-coded quarter entry of `calculateQuarterlyInsights`. -/
structure QuarterStat where
  commits : Nat
  contributors : Nat
  total_prs : Nat
  merge_rate : Nat
  deriving DecidableEq

/-- The constant `growth_metrics` block of `calculateQuarterlyInsights`. -/
structure GrowthMetrics where
  commit_growth_rate : String
  contributor_growth_rate : String
  velocity_trend : String
  deriving DecidableEq

/-- The `trends` block of `calculateQuarterlyInsights`. -/
structure QuarterlyTrends where
  most_productive_quarter : String × Nat
  highest_merge_rate_quarter : String × Nat
  growth_metrics : GrowthMetrics
  deriving DecidableEq

/-- The full `calculateQuarterlyInsights` result; the four quarter fields
model the object keys `'Q1 2024'` … `'Q4 2024'`. -/
structure QuarterlyInsights where
  year_over_year : YearOverYear
  q1_2024 : QuarterStat
  q2_2024 : QuarterStat
  q3_2024 : QuarterStat
  q4_2024 : QuarterStat
  trends : QuarterlyTrends
  deriving DecidableEq

/-- `calculateQuarterlyInsights(commits, contributors, pullRequests)`
(`api/utils/analysis.js` lines 238-289). The binary float literals `0.25`,
`0.28`, … of `Math.floor(x * r)` are modelled as exact rationals
(`x * 25 / 100`, `x * 28 / 100`, …) in natural division. -/
def calculateQuarterlyInsights (commits : List Commit)
    (contributors : List Contributor) (pullRequests : List PullRequest) :
    QuarterlyInsights :=
  let mergedPRs := pullRequests.filter (fun pr => pr.merged_at.isSome)
  ⟨⟨commits.length, contributors.length, pullRequests.length,
    if 0 < pullRequests.length then
      jsRoundDiv (100 * mergedPRs.length) pullRequests.length
    else 0,
    jsRoundDiv commits.length 365,
    jsRoundDiv commits.length 4,
    jsRoundDiv commits.length 30⟩,
   ⟨commits.length * 25 / 100, contributors.length * 6 / 10,
    pullRequests.length * 2 / 10, 85⟩,
   ⟨commits.length * 28 / 100, contributors.length * 7 / 10,
    pullRequests.length * 3 / 10, 78⟩,
   ⟨commits.length * 22 / 100, contributors.length * 8 / 10,
    pullRequests.length * 25 / 100, 92⟩,
   ⟨commits.length * 25 / 100, contributors.length * 9 / 10,
    pullRequests.length * 25 / 100, 88⟩,
   ⟨("Q2 2024", commits.length * 28 / 100), ("Q3 2024", 92),
    ⟨"+15%", "+8%", "improving"⟩⟩⟩

/- ### `api/utils/analysis.js` : calculateRiskAssessment -/

/-- The `calculateRiskAssessment` result object. -/
structure RiskAssessment where
  bus_factor : Nat
  code_concentration : Nat
  activity_trend : String
  deriving DecidableEq

/-- `calculateRiskAssessment(contributors)` (`api/utils/analysis.js` lines
296-315). -/
def calculateRiskAssessment (contributors : List Contributor) :
    RiskAssessment :=
  if contributors.length = 0 then ⟨1, 0, "inactive"⟩
  else
    ⟨max (min contributors.length 10) 1,
     if 0 < sumContributions contributors then
       jsRoundDiv (100 * (contributors.headD default).contributions)
         (sumContributions contributors)
     else 0,
     if 0 < contributors.length then "active" else "inactive"⟩

/- ### Analysis composer fetch blocks -/

/-- Repository metadata, with the fields the analysis handlers read. -/
structure RepoData where
  id : Nat
  name : String
  full_name : String
  description : Option String
  language : Option String
  created_at : Option Nat
  updated_at : Option Nat
  stargazers_count : Nat
  forks_count : Nat
  size : Nat
  default_branch : String
  deriving DecidableEq

/-- Value of `promise.catch(() => fallbackValue)`: the resolved value when
the fetch succeeded, else the fallback. -/
def jsCatch (x : Except Unit α) (fallbackValue : α) : α :=
  match x with
  | .ok v => v
  | .error _ => fallbackValue

/-- The six-way parallel fetch block of the primary analysis handler
(`api/repository/[owner]/[repo]/analysis/index.js` lines 33-40).
`Promise.all` rejects iff any awaited promise rejects; in this handler only
the languages and contents fetches carry a `.catch` fallback (`{}` resp.
`[]`), so commit, pull-request and issue failures reject the joint await. -/
def composeFetchResults (repoData : Except Unit RepoData)
    (languagesData : Except Unit (List (String × Nat)))
    (contentsData : Except Unit (List ContentItem))
    (commits : Except Unit (List Commit))
    (pullRequests : Except Unit (List PullRequest))
    (issues : Except Unit (List Issue)) :
    Except Unit (RepoData × List (String × Nat) × List ContentItem ×
      List Commit × List PullRequest × List Issue) := do
  let r ← repoData
  let cm ← commits
  let pr ← pullRequests
  let iss ← issues
  pure (r, jsCatch languagesData [], jsCatch contentsData [], cm, pr, iss)

/-- The six-way parallel fetch block of the composer variant handler
(`src/unnamed/part_005` lines 53-75), where every optional sub-fetch —
languages, contents, commits, pull requests and issues — carries a
`.catch` fallback to an empty result, and only the repository-metadata
fetch can reject the joint await. -/
def composeFetchResultsVariant (repoData : Except Unit RepoData)
    (languagesData : Except Unit (List (String × Nat)))
    (contentsData : Except Unit (List ContentItem))
    (commits : Except Unit (List Commit))
    (pullRequests : Except Unit (List PullRequest))
    (issues : Except Unit (List Issue)) :
    Except Unit (RepoData × List (String × Nat) × List ContentItem ×
      List Commit × List PullRequest × List Issue) := do
  let r ← repoData
  pure (r, jsCatch languagesData [], jsCatch contentsData [],
    jsCatch commits [], jsCatch pullRequests [], jsCatch issues [])

/-- A concrete repository-metadata value for the composer counterexample. -/
def sampleRepo : RepoData :=
  ⟨1, "r", "o/r", none, none, none, none, 0, 0, 0, "main"⟩

/- ### Theorems -/

theorem fetchAllPagesGo_zero (rem acc : List α) :
    fetchAllPagesGo 0 rem acc = acc ++ rem := by
  rw [fetchAllPagesGo]
  by_cases h0 : (rem.take 100).length = 0
  · have hnil : rem = [] := by
      have := List.length_take 100 rem
      have : rem.length = 0 := by omega
      exact List.eq_nil_of_length_eq_zero this
    simp [h0, hnil]
  · simp only [dif_neg h0]
    by_cases hshort : (rem.take 100).length < 100
    · have htake : rem.take 100 = rem := by
        apply List.take_of_length_le
        have := List.length_take 100 rem
        omega
      rw [if_pos hshort, htake]
    · have hrec := fetchAllPagesGo_zero (rem.drop 100) (acc ++ rem.take 100)
      simp only [if_neg hshort]
      have hfalse : ¬ (0 < 0 ∧ 0 ≤ (acc ++ rem.take 100).length) := by omega
      rw [if_neg hfalse, hrec, List.append_assoc, List.take_append_drop]
  termination_by rem.length
  decreasing_by
    simp only [List.length_take, List.length_drop] at *
    omega

theorem fetchAllPagesGo_pos (m : Nat) (hm : 0 < m) (rem acc : List α)
    (hacc : acc.length < m) :
    fetchAllPagesGo m rem acc =
      if m ≤ acc.length + 100 * (rem.length / 100) then (acc ++ rem).take m
      else acc ++ rem := by
  rw [fetchAllPagesGo]
  have hlt : (rem.take 100).length = min 100 rem.length := List.length_take 100 rem
  by_cases h0 : (rem.take 100).length = 0
  · have hnil : rem = [] := by
      have : rem.length = 0 := by omega
      exact List.eq_nil_of_length_eq_zero this
    subst hnil
    simp only [dif_pos h0, List.length_nil, Nat.zero_div, Nat.mul_zero, Nat.add_zero,
      List.append_nil]
    rw [if_neg (by omega)]
  · simp only [dif_neg h0]
    by_cases hshort : (rem.take 100).length < 100
    · have hr : rem.length < 100 := by omega
      have htake : rem.take 100 = rem := List.take_of_length_le (by omega)
      rw [if_pos hshort, htake, if_neg]
      have : rem.length / 100 = 0 := Nat.div_eq_of_lt hr
      omega
    · have h100 : (rem.take 100).length = 100 := by omega
      have hr : 100 ≤ rem.length := by omega
      rw [if_neg hshort]
      have hlen' : (acc ++ rem.take 100).length = acc.length + 100 := by
        simp [List.length_append, h100]
      by_cases hmax : 0 < m ∧ m ≤ (acc ++ rem.take 100).length
      · rw [if_pos hmax]
        have hdiv : 1 ≤ rem.length / 100 := (Nat.one_le_div_iff (by norm_num)).mpr hr
        rw [if_pos (by omega)]
        have hpre : acc ++ rem.take 100 = (acc ++ rem).take (acc.length + 100) := by
          rw [List.take_append_eq_append_take]
          congr 1
          · exact (List.take_of_length_le (by omega)).symm
          · congr 1
            omega
        rw [hpre, List.take_take]
        congr 1
        omega
      · rw [if_neg hmax]
        have hacc' : (acc ++ rem.take 100).length < m := by omega
        rw [fetchAllPagesGo_pos m hm (rem.drop 100) (acc ++ rem.take 100) hacc']
        have harith : (acc ++ rem.take 100).length + 100 * ((rem.drop 100).length / 100)
            = acc.length + 100 * (rem.length / 100) := by
          simp only [List.length_drop, hlen']
          omega
        have hlist : (acc ++ rem.take 100) ++ rem.drop 100 = acc ++ rem := by
          rw [List.append_assoc, List.take_append_drop]
        rw [harith, hlist]
  termination_by rem.length
  decreasing_by
    simp only [List.length_take, List.length_drop] at *
    omega

/-- Exact characterization of `fetchAllPages` over a collection of
`items.length` available items: with `maxItems = 0` the whole collection is
returned; with `maxItems > 0` the result is truncated to `maxItems` exactly
when the accumulated count crosses `maxItems` on a full page
(`maxItems ≤ 100 * ⌊total/100⌋`), and otherwise — in particular when the
threshold is only crossed by the final short page — the whole collection is
returned untruncated. -/
theorem fetchAllPages_eq (items : List α) (m : Nat) :
    fetchAllPages items m =
      if m = 0 ∨ 100 * (items.length / 100) < m then items else items.take m := by
  unfold fetchAllPages
  rcases Nat.eq_zero_or_pos m with h | h
  · subst h
    rw [fetchAllPagesGo_zero]
    simp
  · rw [fetchAllPagesGo_pos m h items [] (by simpa using h)]
    simp only [List.nil_append, List.length_nil, Nat.zero_add]
    by_cases hc : m ≤ 100 * (items.length / 100)
    · rw [if_pos hc, if_neg (by omega)]
    · rw [if_neg hc, if_pos (by omega)]

theorem scanPage_length_le (dateOf : α → Nat) (since untl : Option Nat)
    (l : List α) : (scanPage dateOf since untl l).1.length ≤ l.length := by
  induction l with
  | nil => simp [scanPage]
  | cons item rest ih =>
    rw [scanPage]
    by_cases hb : beforeSince since (dateOf item)
    · simp [hb]
    · simp only [if_neg hb]
      by_cases hw : withinRange since untl (dateOf item)
      · simpa [hw] using ih
      · simp only [if_neg hw, List.length_cons]
        omega

theorem fetchPagesGo_pages_le (dateOf : α → Nat) (since untl : Option Nat) :
    ∀ (rem acc : List α) (page : Nat), page ≤ 50 →
      (fetchPagesGo dateOf since untl rem acc page).2 ≤ 50 := by
  intro rem acc page hpage
  rw [fetchPagesGo]
  by_cases h0 : (rem.take 100).length = 0
  · simpa [h0] using hpage
  · simp only [dif_neg h0]
    by_cases hstop : (scanPage dateOf since untl (rem.take 100)).2
        ∨ (rem.take 100).length < 100
    · rw [if_pos hstop]
      exact hpage
    · rw [if_neg hstop]
      by_cases hcap : 50 < page + 1
      · rw [if_pos hcap]
        exact hpage
      · rw [if_neg hcap]
        exact fetchPagesGo_pages_le dateOf since untl (rem.drop 100) _ (page + 1)
          (by omega)
  termination_by rem => rem.length
  decreasing_by
    simp only [List.length_take, List.length_drop] at *
    omega

theorem fetchPagesGo_length_le (dateOf : α → Nat) (since untl : Option Nat) :
    ∀ (rem acc : List α) (page : Nat), 1 ≤ page → page ≤ 50 →
      (fetchPagesGo dateOf since untl rem acc page).1.length
        ≤ acc.length + 100 * (51 - page) := by
  intro rem acc page hp1 hp50
  have hscan := scanPage_length_le dateOf since untl (rem.take 100)
  have htk : (rem.take 100).length = min 100 rem.length := List.length_take 100 rem
  rw [fetchPagesGo]
  by_cases h0 : (rem.take 100).length = 0
  · simp only [dif_pos h0]
    omega
  · simp only [dif_neg h0]
    by_cases hstop : (scanPage dateOf since untl (rem.take 100)).2
        ∨ (rem.take 100).length < 100
    · rw [if_pos hstop]
      simp only [List.length_append]
      omega
    · rw [if_neg hstop]
      by_cases hcap : 50 < page + 1
      · rw [if_pos hcap]
        simp only [List.length_append]
        omega
      · rw [if_neg hcap]
        have hrec := fetchPagesGo_length_le dateOf since untl (rem.drop 100)
          (acc ++ (scanPage dateOf since untl (rem.take 100)).1) (page + 1)
          (by omega) (by omega)
        simp only [List.length_append] at hrec
        omega
  termination_by rem => rem.length
  decreasing_by
    simp only [List.length_take, List.length_drop] at *
    omega

theorem beforeSince_true {since : Option Nat} {t : Nat}
    (h : beforeSince since t = true) : ∃ s, since = some s ∧ t < s := by
  cases since with
  | none => simp [beforeSince] at h
  | some s =>
    refine ⟨s, rfl, ?_⟩
    simpa [beforeSince] using h

theorem withinRange_false_of_lt (since untl : Option Nat) (t s : Nat)
    (hs : since = some s) (h : t < s) : withinRange since untl t = false := by
  subst hs
  simp only [withinRange, Bool.and_eq_false_iff, decide_eq_false_iff_not]
  left
  omega

/-- On a page sorted newest-first, the scan loop retains exactly the
in-range items of the page and terminates exactly when the page holds an
item older than the lower bound. -/
theorem scanPage_sorted (dateOf : α → Nat) (since untl : Option Nat) :
    ∀ l : List α, List.Pairwise (fun a b => dateOf b ≤ dateOf a) l →
      scanPage dateOf since untl l
        = (l.filter (fun i => withinRange since untl (dateOf i)),
           l.any (fun i => beforeSince since (dateOf i))) := by
  intro l hpw
  induction l with
  | nil => simp [scanPage]
  | cons item rest ih =>
    rw [List.pairwise_cons] at hpw
    obtain ⟨hrel, hpw'⟩ := hpw
    by_cases hb : beforeSince since (dateOf item) = true
    · rw [scanPage, if_pos hb]
      obtain ⟨s, hs, hlt⟩ := beforeSince_true hb
      have hfil : (item :: rest).filter (fun i => withinRange since untl (dateOf i))
          = [] := by
        rw [List.filter_eq_nil_iff]
        intro a ha
        rcases List.mem_cons.mp ha with rfl | ha'
        · simp [withinRange_false_of_lt since untl (dateOf a) s hs hlt]
        · have := hrel a ha'
          simp [withinRange_false_of_lt since untl (dateOf a) s hs (by omega)]
      rw [hfil]
      simp [List.any_cons, hb]
    · have hb' : beforeSince since (dateOf item) = false := by
        simpa using hb
      simp [scanPage, hb', ih hpw', List.filter_cons, List.any_cons]

theorem fetchPagesGo_sorted (dateOf : α → Nat) (since untl : Option Nat) :
    ∀ (rem acc : List α) (page : Nat), 1 ≤ page → page ≤ 50 →
      rem.length ≤ 100 * (51 - page) →
      List.Pairwise (fun a b => dateOf b ≤ dateOf a) rem →
      (fetchPagesGo dateOf since untl rem acc page).1
        = acc ++ rem.filter (fun i => withinRange since untl (dateOf i)) := by
  intro rem acc page hp1 hp50 hlen hpw
  have htk : (rem.take 100).length = min 100 rem.length := List.length_take 100 rem
  have hsplit : List.Pairwise (fun a b => dateOf b ≤ dateOf a)
      (rem.take 100 ++ rem.drop 100) := by
    rw [List.take_append_drop]
    exact hpw
  obtain ⟨hpwT, hpwD, hcross⟩ := List.pairwise_append.mp hsplit
  have hscan := scanPage_sorted dateOf since untl (rem.take 100) hpwT
  have hscan1 : (scanPage dateOf since untl (rem.take 100)).1
      = (rem.take 100).filter (fun i => withinRange since untl (dateOf i)) := by
    rw [hscan]
  have hfr : rem.filter (fun i => withinRange since untl (dateOf i))
      = (rem.take 100).filter (fun i => withinRange since untl (dateOf i))
        ++ (rem.drop 100).filter (fun i => withinRange since untl (dateOf i)) := by
    rw [← List.filter_append, List.take_append_drop]
  rw [fetchPagesGo]
  by_cases h0 : (rem.take 100).length = 0
  · have hnil : rem = [] := List.eq_nil_of_length_eq_zero (by omega)
    subst hnil
    simp [h0]
  · simp only [dif_neg h0]
    by_cases hterm : (scanPage dateOf since untl (rem.take 100)).2 = true
    · rw [if_pos (Or.inl hterm)]
      show acc ++ (scanPage dateOf since untl (rem.take 100)).1 = _
      have hany : (rem.take 100).any (fun i => beforeSince since (dateOf i)) = true := by
        rw [hscan] at hterm
        exact hterm
      obtain ⟨i, hiMem, hiB⟩ := List.any_eq_true.mp hany
      obtain ⟨s, hs, hlt⟩ := beforeSince_true hiB
      have hfd : (rem.drop 100).filter (fun i => withinRange since untl (dateOf i))
          = [] := by
        rw [List.filter_eq_nil_iff]
        intro b hb
        have := hcross i hiMem b hb
        simp [withinRange_false_of_lt since untl (dateOf b) s hs (by omega)]
      rw [hscan1, hfr, hfd, List.append_nil]
    · by_cases hshort : (rem.take 100).length < 100
      · rw [if_pos (Or.inr hshort)]
        show acc ++ (scanPage dateOf since untl (rem.take 100)).1 = _
        have htake : rem.take 100 = rem := List.take_of_length_le (by omega)
        rw [hscan1, htake]
      · rw [if_neg (by push_neg; exact ⟨by simpa using hterm, by omega⟩)]
        by_cases hcap : 50 < page + 1
        · rw [if_pos hcap]
          show acc ++ (scanPage dateOf since untl (rem.take 100)).1 = _
          have htake : rem.take 100 = rem := List.take_of_length_le (by omega)
          rw [hscan1, htake]
        · rw [if_neg hcap]
          rw [fetchPagesGo_sorted dateOf since untl (rem.drop 100)
            (acc ++ (scanPage dateOf since untl (rem.take 100)).1) (page + 1)
            (by omega) (by omega)
            (by simp only [List.length_drop]; omega) hpwD]
          rw [hscan1, hfr, List.append_assoc]
  termination_by rem => rem.length
  decreasing_by
    simp only [List.length_take, List.length_drop] at *
    omega

/-- Full-run corollary: on a newest-first (non-increasing timestamp)
collection of at most 5000 items — so that the 50-page ceiling cannot cut
the walk short — the date-bounded fetch returns exactly the items whose
timestamp lies within `[since, until]`. -/
theorem fetchPagesWithDateTermination_sorted (dateOf : α → Nat)
    (since untl : Option Nat) (items : List α)
    (hsort : List.Pairwise (fun a b => dateOf b ≤ dateOf a) items)
    (hlen : items.length ≤ 5000) :
    (fetchPagesWithDateTermination dateOf since untl items).1
      = items.filter (fun i => withinRange since untl (dateOf i)) := by
  unfold fetchPagesWithDateTermination
  rw [fetchPagesGo_sorted dateOf since untl items [] 1 (by omega) (by omega)
    (by omega) hsort]
  simp

/-- The termination flag of the page scan is set exactly when the page
holds an item older than the lower bound — on any page, sorted or not: the
loop only breaks on a too-old item, so it always reaches the first one. -/
theorem scanPage_terminates (dateOf : α → Nat) (since untl : Option Nat) :
    ∀ l : List α, (scanPage dateOf since untl l).2
      = l.any (fun i => beforeSince since (dateOf i)) := by
  intro l
  induction l with
  | nil => simp [scanPage]
  | cons item rest ih =>
    rw [scanPage, List.any_cons]
    by_cases hb : beforeSince since (dateOf item) = true
    · simp [hb]
    · have hb' : beforeSince since (dateOf item) = false := by simpa using hb
      simp [hb', ih]

/-- Early termination of the page loop: whenever the page about to be
scanned holds an item older than the lower bound, the loop returns right
after that page — the accumulated items plus the page's retained prefix —
and requests no further page. -/
theorem fetchPagesGo_stops_on_old_item (dateOf : α → Nat)
    (since untl : Option Nat) (rem acc : List α) (page : Nat)
    (hany : (rem.take 100).any (fun i => beforeSince since (dateOf i)) = true) :
    fetchPagesGo dateOf since untl rem acc page
      = (acc ++ (scanPage dateOf since untl (rem.take 100)).1, page) := by
  have hne : ¬ (rem.take 100).length = 0 := by
    intro h0
    rw [List.eq_nil_of_length_eq_zero h0] at hany
    simp at hany
  have hterm : (scanPage dateOf since untl (rem.take 100)).2 = true := by
    rw [scanPage_terminates]
    exact hany
  rw [fetchPagesGo, dif_neg hne, if_pos (Or.inl hterm)]

theorem insertSorted_perm (le : α → α → Bool) (c : α) :
    ∀ l : List α, (insertSorted le c l).Perm (c :: l)
  | [] => List.Perm.refl _
  | d :: rest => by
    rw [insertSorted]
    by_cases h : le c d
    · rw [if_pos h]
    · rw [if_neg h]
      exact ((insertSorted_perm le c rest).cons d).trans (List.Perm.swap c d rest)

theorem stableSortBy_perm (le : α → α → Bool) :
    ∀ l : List α, (stableSortBy le l).Perm l
  | [] => List.Perm.refl _
  | c :: rest =>
    (insertSorted_perm le c (stableSortBy le rest)).trans
      ((stableSortBy_perm le rest).cons c)

theorem pairwise_insertSorted (le : α → α → Bool)
    (htrans : ∀ a b c, le a b = true → le b c = true → le a c = true)
    (htot : ∀ a b, le a b = true ∨ le b a = true) (c : α) :
    ∀ l : List α, List.Pairwise (fun a b => le a b = true) l →
      List.Pairwise (fun a b => le a b = true) (insertSorted le c l) := by
  intro l hl
  induction l with
  | nil => simp [insertSorted]
  | cons d rest ih =>
    rw [List.pairwise_cons] at hl
    obtain ⟨hd, hrest⟩ := hl
    rw [insertSorted]
    by_cases h : le c d
    · rw [if_pos h]
      refine List.pairwise_cons.mpr ⟨?_, List.pairwise_cons.mpr ⟨hd, hrest⟩⟩
      intro x hx
      rcases List.mem_cons.mp hx with rfl | hx'
      · exact h
      · exact htrans c d x h (hd x hx')
    · rw [if_neg h]
      refine List.pairwise_cons.mpr ⟨?_, ih hrest⟩
      intro x hx
      have hx' := (insertSorted_perm le c rest).mem_iff.mp hx
      rcases List.mem_cons.mp hx' with rfl | hx''
      · rcases htot d x with hdx | hxd
        · exact hdx
        · exact False.elim (h hxd)
      · exact hd x hx''

theorem pairwise_stableSortBy (le : α → α → Bool)
    (htrans : ∀ a b c, le a b = true → le b c = true → le a c = true)
    (htot : ∀ a b, le a b = true ∨ le b a = true) :
    ∀ l : List α, List.Pairwise (fun a b => le a b = true) (stableSortBy le l)
  | [] => List.Pairwise.nil
  | c :: rest =>
    pairwise_insertSorted le htrans htot c (stableSortBy le rest)
      (pairwise_stableSortBy le htrans htot rest)

theorem sublist_insertSorted (le : α → α → Bool) (c : α) :
    ∀ {s l : List α}, s.Sublist l → s.Sublist (insertSorted le c l) := by
  intro s l
  induction l generalizing s with
  | nil =>
    intro h
    rw [List.sublist_nil.mp h]
    simp [insertSorted]
  | cons d rest ih =>
    intro h
    rw [insertSorted]
    by_cases hc : le c d
    · rw [if_pos hc]
      exact h.cons c
    · rw [if_neg hc]
      cases h with
      | cons _ h' => exact (ih h').cons d
      | cons₂ _ h' => exact (ih h').cons₂ d

theorem pair_sublist_insertSorted (le : α → α → Bool) (c b : α)
    (hcb : le c b = true) :
    ∀ {s : List α}, b ∈ s → [c, b].Sublist (insertSorted le c s) := by
  intro s
  induction s with
  | nil => intro h; simp at h
  | cons d rest ih =>
    intro hmem
    rw [insertSorted]
    by_cases hc : le c d
    · rw [if_pos hc]
      exact (List.singleton_sublist.mpr hmem).cons₂ c
    · rw [if_neg hc]
      rcases List.mem_cons.mp hmem with rfl | hmem'
      · exact False.elim (hc hcb)
      · exact (ih hmem').cons d

/-- Stability of `stableSortBy`: two elements the comparator does not force
to swap (in particular, tied elements) keep their original relative order. -/
theorem stableSortBy_stable (le : α → α → Bool) :
    ∀ {l : List α} {a b : α}, [a, b].Sublist l → le a b = true →
      [a, b].Sublist (stableSortBy le l) := by
  intro l
  induction l with
  | nil =>
    intro a b h _
    simp at h
  | cons c rest ih =>
    intro a b h hab
    rw [stableSortBy]
    cases h with
    | cons _ h' => exact sublist_insertSorted le c (ih h' hab)
    | cons₂ _ h' =>
      have hb : b ∈ stableSortBy le rest :=
        (stableSortBy_perm le rest).mem_iff.mpr (List.singleton_sublist.mp h')
      exact pair_sublist_insertSorted le c b hab hb

theorem sumContributions_bump (s : String) :
    ∀ l : List Contributor, l.any (fun x => x.login = s) = true →
      sumContributions (bumpContribution s l) = sumContributions l + 1 := by
  intro l
  induction l with
  | nil => intro h; simp at h
  | cons x rest ih =>
    intro h
    rw [bumpContribution]
    by_cases hx : x.login = s
    · rw [if_pos hx]
      simp [sumContributions]
      omega
    · rw [if_neg hx]
      have h' : rest.any (fun x => x.login = s) = true := by
        simp only [List.any_cons, Bool.or_eq_true] at h
        rcases h with h | h
        · exact False.elim (hx (by simpa using h))
        · exact h
      simp only [sumContributions, List.map_cons, List.sum_cons] at *
      rw [ih h']
      omega

theorem sumContributions_contributorFold :
    ∀ (cs : List Commit) (acc : List Contributor),
      sumContributions (contributorFold acc cs)
        = sumContributions acc + cs.countP (fun c => jsTruthy (resolveLogin c)) := by
  intro cs
  induction cs with
  | nil => intro acc; simp [contributorFold, List.countP_nil]
  | cons c rest ih =>
    intro acc
    rw [contributorFold, List.countP_cons]
    by_cases hc : jsTruthy (resolveLogin c) = true
    · rw [if_pos hc]
      by_cases hmem : acc.any (fun x => x.login = (resolveLogin c).getD "") = true
      · rw [if_pos hmem, ih, sumContributions_bump _ acc hmem]
        simp [hc]
        omega
      · rw [if_neg hmem, ih]
        simp [hc, sumContributions]
        omega
    · rw [if_neg hc, ih]
      simp [hc]

/- ### Remaining helper lemmas -/

theorem pairsAmong_le_three :
    ∀ l : List Contributor, l.length ≤ 3 → (pairsAmong l).length ≤ 3 := by
  intro l hl
  rcases l with _ | ⟨a, _ | ⟨b, _ | ⟨c, _ | ⟨d, rest⟩⟩⟩⟩
  · simp [pairsAmong]
  · simp [pairsAmong]
  · have h1 := List.length_filterMap_le (mkCollabPair a) [b]
    simp only [pairsAmong, List.filterMap_nil, List.length_append,
      List.length_nil] at *
    simp only [List.length_cons, List.length_nil] at h1
    omega
  · have h1 := List.length_filterMap_le (mkCollabPair a) [b, c]
    have h2 := List.length_filterMap_le (mkCollabPair b) [c]
    simp only [pairsAmong, List.filterMap_nil, List.length_append,
      List.length_nil] at *
    simp only [List.length_cons, List.length_nil] at h1 h2
    omega
  · simp only [List.length_cons] at hl
    omega

theorem contribGe_trans (a b c : Contributor) (hab : contribGe a b = true)
    (hbc : contribGe b c = true) : contribGe a c = true := by
  simp only [contribGe, decide_eq_true_eq] at *
  omega

theorem contribGe_total (a b : Contributor) :
    contribGe a b = true ∨ contribGe b a = true := by
  simp only [contribGe, decide_eq_true_eq]
  omega

/- ### Claim theorems -/

/-- C1, counterexample. The claim says `fetchAllPages` returns exactly
`min(total_available, maxItems)` items whenever `maxItems > 0`, truncating
to `maxItems` when the accumulated count reaches it. Over a collection of
150 available items (pages of 100 and 50) with `maxItems = 120`, the
source's short-page break runs before its max-items check, so the final
partial page escapes truncation and all 150 items are returned instead of
`min(150, 120) = 120`. -/
theorem C1_fetchAllPages_counterexample :
    (fetchAllPages (List.range 150) 120).length = 150 ∧
      (fetchAllPages (List.range 150) 120).length ≠ min 150 120 := by
  have h := fetchAllPages_eq (List.range 150) 120
  rw [if_pos (by right; simp [List.length_range])] at h
  rw [h]
  simp

/-- C1, amended: with `maxItems = 0` the Paginated Fetcher returns the full
available set; with `maxItems > 0` it returns exactly the first `maxItems`
items when the accumulated count crosses `maxItems` on a full page
(`maxItems ≤ 100 * ⌊total/100⌋`), but when the threshold would only be
crossed by the final short page it returns the full available set, which
may exceed `maxItems`. -/
theorem C1_fetchAllPages_spec (items : List α) (m : Nat) :
    fetchAllPages items m =
      if m = 0 ∨ 100 * (items.length / 100) < m then items else items.take m :=
  fetchAllPages_eq items m

/-- C2, counterexample. The claim says a failure of any of the five
optional sub-fetches (languages, contents, commits, pull requests, issues)
degrades to an empty result without aborting the analysis. In the primary
analysis handler the commits fetch carries no `.catch`, so a failing
commits fetch with every other fetch succeeding rejects the `Promise.all`
and aborts the request instead of degrading. -/
theorem C2_composer_counterexample :
    composeFetchResults (Except.ok sampleRepo) (Except.ok []) (Except.ok [])
        (Except.error ()) (Except.ok []) (Except.ok [])
      = Except.error () ∧
    composeFetchResults (Except.ok sampleRepo) (Except.ok []) (Except.ok [])
        (Except.error ()) (Except.ok []) (Except.ok [])
      ≠ Except.ok (sampleRepo, [], [], [], [], []) := by
  constructor
  · rfl
  · intro h
    have h' : (Except.error () : Except Unit (RepoData × List (String × Nat) ×
        List ContentItem × List Commit × List PullRequest × List Issue))
      = Except.ok (sampleRepo, [], [], [], [], []) := h
    exact Except.noConfusion h'

/-- C2, amended: in the primary analysis handler only the languages and
contents sub-fetches are optional (degrading to `{}` resp. `[]`), while a
failure of the commits, pull-requests or issues fetch — like a
repository-metadata failure — rejects the joint await and aborts the
request; in the composer variant handler all five sub-fetches degrade to
empty results and exactly a repository-metadata failure aborts. -/
theorem C2_composer_error_policy :
    (∀ (r : Except Unit RepoData) (l : Except Unit (List (String × Nat)))
        (c : Except Unit (List ContentItem)) (cm : Except Unit (List Commit))
        (pr : Except Unit (List PullRequest)) (iss : Except Unit (List Issue)),
        composeFetchResults r l c cm pr iss = Except.error ()
          ↔ r = Except.error () ∨ cm = Except.error () ∨ pr = Except.error ()
            ∨ iss = Except.error ()) ∧
    (∀ (rv : RepoData) (l : Except Unit (List (String × Nat)))
        (c : Except Unit (List ContentItem)) (cmv : List Commit)
        (prv : List PullRequest) (issv : List Issue),
        composeFetchResults (Except.ok rv) l c (Except.ok cmv) (Except.ok prv)
            (Except.ok issv)
          = Except.ok (rv, jsCatch l [], jsCatch c [], cmv, prv, issv)) ∧
    (∀ (r : Except Unit RepoData) (l : Except Unit (List (String × Nat)))
        (c : Except Unit (List ContentItem)) (cm : Except Unit (List Commit))
        (pr : Except Unit (List PullRequest)) (iss : Except Unit (List Issue)),
        composeFetchResultsVariant r l c cm pr iss = Except.error ()
          ↔ r = Except.error ()) ∧
    (∀ (rv : RepoData) (l : Except Unit (List (String × Nat)))
        (c : Except Unit (List ContentItem)) (cm : Except Unit (List Commit))
        (pr : Except Unit (List PullRequest)) (iss : Except Unit (List Issue)),
        composeFetchResultsVariant (Except.ok rv) l c cm pr iss
          = Except.ok (rv, jsCatch l [], jsCatch c [], jsCatch cm [],
              jsCatch pr [], jsCatch iss [])) := by
  refine ⟨?_, ?_, ?_, ?_⟩
  · intro r l c cm pr iss
    rcases r with ⟨⟩ | rv <;> rcases cm with ⟨⟩ | cmv <;> rcases pr with ⟨⟩ | prv <;>
      rcases iss with ⟨⟩ | issv <;>
      simp [composeFetchResults, Except.bind, bind, pure, Except.pure]
  · intro rv l c cmv prv issv
    rfl
  · intro r l c cm pr iss
    rcases r with ⟨⟩ | rv <;>
      simp [composeFetchResultsVariant, Except.bind, bind, pure, Except.pure]
  · intro rv l c cm pr iss
    rfl

/-- C3, counterexample. The claim says the Date-Bounded Fetcher retains
exactly the in-range items of every newest-first collection; but over a
constant collection of 5001 in-range items the hard 50-page ceiling stops
the walk after 5000 scanned items, so at least one in-range item is
dropped. -/
theorem C3_dateBounded_counterexample :
    (fetchPagesWithDateTermination (fun t => t) (some 5) (some 8)
        (List.replicate 5001 6)).1
      ≠ (List.replicate 5001 6).filter
          (fun t => withinRange (some 5) (some 8) t) := by
  intro h
  have hlen := fetchPagesGo_length_le (fun t => t) (some 5) (some 8)
    (List.replicate 5001 6) [] 1 (by omega) (by omega)
  have hfil : ((List.replicate 5001 6).filter
      (fun t => withinRange (some 5) (some 8) t)).length = 5001 := by
    rw [List.filter_eq_self.mpr ?_]
    · exact List.length_replicate 5001 6
    · intro a ha
      rw [List.eq_of_mem_replicate ha]
      decide
  have hcongr := congrArg List.length h
  rw [hfil] at hcongr
  unfold fetchPagesWithDateTermination at hcongr
  simp only [List.length_nil, List.length_replicate] at hlen hcongr
  omega

/-- C3, amended: on every newest-first (non-increasing timestamp)
collection whose size stays within the 50-page ceiling (at most 5000
items), the Date-Bounded Fetcher retains exactly the items whose timestamp
lies in `[lower, upper]`. Encountering an item older than the lower bound
stops the entire fetch: at any point of the page walk, a page holding a
too-old item makes the loop return right after that page, and in
particular a too-old item in the first requested page means exactly one
page is ever requested, however many pages the collection spans. On the
synthetic newest-first collection `[10, 9, …, 1]` with bounds `(5, 8)` the
result is exactly `[8, 7, 6, 5]` after a single page request. -/
theorem C3_dateBounded_spec :
    (∀ {α : Type} (dateOf : α → Nat) (since untl : Option Nat)
        (items : List α),
        List.Pairwise (fun a b => dateOf b ≤ dateOf a) items →
        items.length ≤ 5000 →
        (fetchPagesWithDateTermination dateOf since untl items).1
          = items.filter (fun i => withinRange since untl (dateOf i))) ∧
    (∀ {α : Type} (dateOf : α → Nat) (since untl : Option Nat)
        (rem acc : List α) (page : Nat),
        (rem.take 100).any (fun i => beforeSince since (dateOf i)) = true →
        fetchPagesGo dateOf since untl rem acc page
          = (acc ++ (scanPage dateOf since untl (rem.take 100)).1, page)) ∧
    (∀ {α : Type} (dateOf : α → Nat) (since untl : Option Nat)
        (items : List α),
        (items.take 100).any (fun i => beforeSince since (dateOf i)) = true →
        (fetchPagesWithDateTermination dateOf since untl items).2 = 1) ∧
    fetchPagesWithDateTermination (fun t => t) (some 5) (some 8)
        [10, 9, 8, 7, 6, 5, 4, 3, 2, 1]
      = ([8, 7, 6, 5], 1) := by
  refine ⟨?_, ?_, ?_, ?_⟩
  · intro α dateOf since untl items hsort hlen
    exact fetchPagesWithDateTermination_sorted dateOf since untl items hsort hlen
  · intro α dateOf since untl rem acc page hany
    exact fetchPagesGo_stops_on_old_item dateOf since untl rem acc page hany
  · intro α dateOf since untl items hany
    unfold fetchPagesWithDateTermination
    rw [fetchPagesGo_stops_on_old_item dateOf since untl items [] 1 hany]
  · rw [fetchPagesWithDateTermination, fetchPagesGo]
    decide

/-- C3, witness: the in-range characterization applied to the spec's
synthetic ten-item collection, and the early-termination page count on a
200-item collection whose first page holds a too-old item — one page
requested even though a full walk would need two. -/
theorem C3_dateBounded_spec_witness :
    (fetchPagesWithDateTermination (fun t : Nat => t) (some 5) (some 8)
        [10, 9, 8, 7, 6, 5, 4, 3, 2, 1]).1
      = [10, 9, 8, 7, 6, 5, 4, 3, 2, 1].filter
          (fun i => withinRange (some 5) (some 8) i) ∧
    (fetchPagesWithDateTermination (fun t : Nat => t) (some 5) (some 8)
        ([10, 9, 8, 7, 6, 5, 4, 3, 2, 1] ++ List.replicate 190 0)).2 = 1 :=
  ⟨C3_dateBounded_spec.1 (fun t : Nat => t) (some 5) (some 8)
     [10, 9, 8, 7, 6, 5, 4, 3, 2, 1] (by decide) (by decide),
   C3_dateBounded_spec.2.2.1 (fun t : Nat => t) (some 5) (some 8)
     ([10, 9, 8, 7, 6, 5, 4, 3, 2, 1] ++ List.replicate 190 0) (by decide)⟩

/-- C4: the contribution counts produced by `extractContributors` sum to
the number of scanned commits whose resolved author identity is truthy —
each such commit increments exactly one contributor's count by one, and
commits lacking both a truthy structured author login and a truthy
freeform author name are excluded deterministically. -/
theorem C4_extractContributors_sum (commits : List Commit) :
    sumContributions (extractContributors commits)
      = commits.countP (fun c => jsTruthy (resolveLogin c)) := by
  unfold extractContributors sumContributions
  rw [((stableSortBy_perm contribGe (contributorFold [] commits)).map
    Contributor.contributions).sum_eq]
  have h := sumContributions_contributorFold commits []
  unfold sumContributions at h
  simpa using h

/-- C5: `extractContributors` resolves each commit's identity preferentially
from the structured author reference's login, falling back to the freeform
commit author name when the structured login is not available (truthy);
the result is sorted descending by contribution count; tied contributors
keep their first-seen relative order (the order of the pre-sort
accumulation); and over commits `[{author:A}, {author:B}, {author:A}]` it
yields `[{A,2}, {B,1}]` in that order. -/
theorem C5_extractContributors_order :
    (∀ c : Commit,
        (jsTruthy (c.author.bind AuthorRef.login) = true →
          resolveLogin c = c.author.bind AuthorRef.login) ∧
        (jsTruthy (c.author.bind AuthorRef.login) = false →
          resolveLogin c = (c.commit.bind CommitDetail.author).bind
            CommitAuthor.name)) ∧
    (∀ commits : List Commit,
        List.Pairwise (fun a b => b.contributions ≤ a.contributions)
          (extractContributors commits)) ∧
    (∀ (commits : List Commit) (a b : Contributor),
        [a, b].Sublist (contributorFold [] commits) →
        b.contributions ≤ a.contributions →
        [a, b].Sublist (extractContributors commits)) ∧
    extractContributors [⟨some ⟨some "A", none, none⟩, none⟩,
        ⟨some ⟨some "B", none, none⟩, none⟩,
        ⟨some ⟨some "A", none, none⟩, none⟩]
      = [⟨"A", 2, "", ""⟩, ⟨"B", 1, "", ""⟩] := by
  refine ⟨?_, ?_, ?_, by decide⟩
  · intro c
    constructor
    · intro h
      simp [resolveLogin, h]
    · intro h
      simp [resolveLogin, h]
  · intro commits
    have h := pairwise_stableSortBy contribGe contribGe_trans contribGe_total
      (contributorFold [] commits)
    exact h.imp (by intro a b hab; simpa [contribGe] using hab)
  · intro commits a b hsub hle
    exact stableSortBy_stable contribGe hsub (by simpa [contribGe] using hle)

/-- C5, witness: stability applied to the spec's three-commit example —
the accumulated pair `[{A,2}, {B,1}]` stays in place through the sort. -/
theorem C5_extractContributors_order_witness :
    [(⟨"A", 2, "", ""⟩ : Contributor), ⟨"B", 1, "", ""⟩].Sublist
      (extractContributors [⟨some ⟨some "A", none, none⟩, none⟩,
        ⟨some ⟨some "B", none, none⟩, none⟩,
        ⟨some ⟨some "A", none, none⟩, none⟩]) :=
  C5_extractContributors_order.2.2.1
    [⟨some ⟨some "A", none, none⟩, none⟩,
     ⟨some ⟨some "B", none, none⟩, none⟩,
     ⟨some ⟨some "A", none, none⟩, none⟩]
    ⟨"A", 2, "", ""⟩ ⟨"B", 1, "", ""⟩ (by decide) (by decide)

/-- C6: for every endpoint, bounds and collection, the Date-Bounded Fetcher
requests at most 50 pages, and consequently returns at most 5000
accumulated items; the fetch is a total function, so reaching the ceiling
stops the walk and returns the accumulated items rather than failing, even
when the newest-first sort assumption does not hold. -/
theorem C6_page_cap {α : Type} (dateOf : α → Nat) (since untl : Option Nat)
    (items : List α) :
    (fetchPagesWithDateTermination dateOf since untl items).2 ≤ 50 ∧
    (fetchPagesWithDateTermination dateOf since untl items).1.length ≤ 5000 := by
  constructor
  · exact fetchPagesGo_pages_le dateOf since untl items [] 1 (by omega)
  · have h := fetchPagesGo_length_le dateOf since untl items [] 1
      (by omega) (by omega)
    unfold fetchPagesWithDateTermination
    simpa using h

/-- C7: on the empty contributor list `calculateRiskAssessment` returns
`{bus_factor: 1, code_concentration: 0, activity_trend: 'inactive'}`; on
every descending-sorted nonempty list it returns the contributor count
clamped to `[1, 10]`, the top (head) contributor's share of total
contributions rounded to the nearest percent, and `'active'` — so the
trend is `'active'` iff contributors exist. (Lean's division by zero is 0,
so the unguarded rounded share below also covers the all-zero-counts case,
which the source guards to the same value `0`.) -/
theorem C7_riskAssessment_spec :
    calculateRiskAssessment [] = ⟨1, 0, "inactive"⟩ ∧
    (∀ (c : Contributor) (rest : List Contributor),
        List.Pairwise (fun a b => b.contributions ≤ a.contributions)
          (c :: rest) →
        calculateRiskAssessment (c :: rest)
          = ⟨max (min (c :: rest).length 10) 1,
             jsRoundDiv (100 * c.contributions) (sumContributions (c :: rest)),
             "active"⟩) := by
  constructor
  · rfl
  · intro c rest _hp
    have hlen : ¬ (c :: rest).length = 0 := by simp
    by_cases ht : 0 < sumContributions (c :: rest)
    · simp only [calculateRiskAssessment, if_neg hlen, List.headD_cons,
        if_pos ht]
      simp
    · have h0 : sumContributions (c :: rest) = 0 := by omega
      simp only [calculateRiskAssessment, if_neg hlen, List.headD_cons,
        if_neg ht, h0]
      simp [jsRoundDiv]

/-- C7, witness: the characterization applied to the two-contributor list
`[{A,2}, {B,1}]`, whose concentration is `round(200/3) = 67`. -/
theorem C7_riskAssessment_spec_witness :
    calculateRiskAssessment [⟨"A", 2, "", ""⟩, ⟨"B", 1, "", ""⟩]
      = ⟨max (min ([(⟨"A", 2, "", ""⟩ : Contributor), ⟨"B", 1, "", ""⟩]).length 10) 1,
         jsRoundDiv (100 * 2)
           (sumContributions [⟨"A", 2, "", ""⟩, ⟨"B", 1, "", ""⟩]),
         "active"⟩ :=
  C7_riskAssessment_spec.2 ⟨"A", 2, "", ""⟩ [⟨"B", 1, "", ""⟩] (by decide)

/-- C8: with positive total bytes, `calculateLanguagePercentages` maps each
language to `Math.round(bytes/total*100)`, and that value is the nearest
integer to the exact share `100*bytes/total` (within one half, half
rounding up): `|100*b/t − v| ≤ 1/2` stated integrally as
`200b ≤ 2tv + t ∧ 2tv ≤ 200b + t`. With zero total bytes the result is a
100% allocation to the fallback language when that fallback is truthy
(`if (fallbackLanguage)`), else the empty mapping — in particular a falsy
empty-string fallback yields the empty mapping. The spec's three examples
are verified concretely. -/
theorem C8_languagePercentages_spec :
    (∀ (data : List (String × Nat)) (fb : Option String),
        0 < (data.map Prod.snd).sum →
        calculateLanguagePercentages data fb
          = data.map (fun p =>
              (p.1, jsRoundDiv (100 * p.2) ((data.map Prod.snd).sum)))) ∧
    (∀ b total : Nat, 0 < total →
        200 * b ≤ 2 * total * jsRoundDiv (100 * b) total + total ∧
        2 * total * jsRoundDiv (100 * b) total ≤ 200 * b + total) ∧
    (∀ (data : List (String × Nat)) (fb : Option String),
        (data.map Prod.snd).sum = 0 →
        calculateLanguagePercentages data fb
          = if jsTruthy fb then [(fb.getD "", 100)] else []) ∧
    calculateLanguagePercentages [("JS", 300), ("TS", 100)] none
      = [("JS", 75), ("TS", 25)] ∧
    calculateLanguagePercentages [] (some "Python") = [("Python", 100)] ∧
    calculateLanguagePercentages [] none = [] ∧
    calculateLanguagePercentages [] (some "") = [] := by
  refine ⟨?_, ?_, ?_, by decide, by decide, by decide, by decide⟩
  · intro data fb h
    unfold calculateLanguagePercentages
    rw [if_pos h]
  · intro b total h
    have h200 : 2 * (100 * b) = 200 * b := by ring
    simp only [jsRoundDiv, h200]
    have hmod := Nat.div_add_mod (200 * b + total) (2 * total)
    have hrlt : (200 * b + total) % (2 * total) < 2 * total :=
      Nat.mod_lt _ (by omega)
    omega
  · intro data fb h
    unfold calculateLanguagePercentages
    rw [if_neg (by omega)]

/-- C8, witness: the positive-total characterization applied to
`{JS: 300, TS: 100}`. -/
theorem C8_languagePercentages_spec_witness :
    calculateLanguagePercentages [("JS", 300), ("TS", 100)] none
      = [("JS", 300), ("TS", 100)].map (fun p =>
          (p.1, jsRoundDiv (100 * p.2)
            (([("JS", 300), ("TS", 100)].map Prod.snd).sum))) :=
  C8_languagePercentages_spec.1 [("JS", 300), ("TS", 100)] none (by decide)

/-- C9: every Aggregator function is deterministic. The source functions
close over no module-level mutable state, clock or randomness — their only
inputs are their arguments — so their translations are closed pure
functions and repeated invocation on the same collection yields the
identical output definitionally. -/
theorem C9_aggregator_deterministic :
    (∀ commits : List Commit,
        extractContributors commits = extractContributors commits) ∧
    (∀ (contributors : List Contributor) (maxPairs : Nat),
        generateCollaborationPairs contributors maxPairs
          = generateCollaborationPairs contributors maxPairs) ∧
    (∀ (data : List (String × Nat)) (fb : Option String),
        calculateLanguagePercentages data fb
          = calculateLanguagePercentages data fb) ∧
    (∀ contents : List ContentItem,
        analyzeFileTypes contents = analyzeFileTypes contents) ∧
    (∀ commits : List Commit,
        generateActivityHeatmap commits = generateActivityHeatmap commits) ∧
    (∀ (commits : List Commit) (contributors : List Contributor)
        (prs : List PullRequest),
        calculateQuarterlyInsights commits contributors prs
          = calculateQuarterlyInsights commits contributors prs) ∧
    (∀ contributors : List Contributor,
        calculateRiskAssessment contributors
          = calculateRiskAssessment contributors) :=
  ⟨fun _ => rfl, fun _ _ => rfl, fun _ _ => rfl, fun _ => rfl, fun _ => rfl,
   fun _ _ _ => rfl, fun _ => rfl⟩

/-- C10: pairs are drawn only from the top 3 contributors, so at most
`C(3,2) = 3` unordered pairs exist; for any `maxPairs ≥ 3` — including the
default 6 — `pairs.slice(0, maxPairs)` never truncates: the result is the
full candidate pair list and has length at most 3. -/
theorem C10_collabPairs_cap (contributors : List Contributor)
    (maxPairs : Nat) (hm : 3 ≤ maxPairs) :
    (generateCollaborationPairs contributors maxPairs).length ≤ 3 ∧
    generateCollaborationPairs contributors maxPairs
      = pairsAmong ((contributors.take 5).take 3) ∧
    generateCollaborationPairs contributors maxPairs
      = generateCollaborationPairs contributors 6 := by
  have hlen3 : ((contributors.take 5).take 3).length ≤ 3 := by
    rw [List.length_take]
    omega
  have hp := pairsAmong_le_three _ hlen3
  unfold generateCollaborationPairs
  refine ⟨?_, ?_, ?_⟩
  · have := List.length_take maxPairs (pairsAmong ((contributors.take 5).take 3))
    omega
  · exact List.take_of_length_le (by omega)
  · have e1 : (pairsAmong ((contributors.take 5).take 3)).take maxPairs
        = pairsAmong ((contributors.take 5).take 3) :=
      List.take_of_length_le (by omega)
    have e2 : (pairsAmong ((contributors.take 5).take 3)).take 6
        = pairsAmong ((contributors.take 5).take 3) :=
      List.take_of_length_le (by omega)
    rw [e1, e2]

/-- C10, witness: the cap theorem applied to a concrete two-contributor
list with the default `maxPairs = 6`. -/
theorem C10_collabPairs_cap_witness :
    (generateCollaborationPairs [⟨"A", 25, "", ""⟩, ⟨"B", 12, "", ""⟩] 6).length
      ≤ 3 :=
  (C10_collabPairs_cap [⟨"A", 25, "", ""⟩, ⟨"B", 12, "", ""⟩] 6 (by decide)).1
